import Mathlib

/-
Shallow embedding of src/Convertors/_CreateMultiCategoryDensityFilterBankData.py
(malariagen/DQXServer).

Modelling conventions:
* Python integers are `Int`; counts are `Nat`.
* A "block" written to an output file is represented by the count vector that
  is handed to `encoder.perform` (the encoder is an external pure function,
  spec section 6, so the sequence of encoder inputs determines the file
  contents byte for byte).
* The file system is an association list from file keys to the ordered list
  of blocks written so far.  `open(path, 'w')` truncates, i.e. sets the entry
  to `[]`.  The file name `Summ_<chromosome>_<str(blocksize)>` is determined
  by, and determines, the pair `(chromosome, blocksize)` (the textual form of
  an integer contains no tab or underscore), so files are keyed by that pair.
* The `while pos >= level.currentblockend` loop of `Summariser.Add` is
  modelled by structural recursion on the fuel
  `(pos + 1 - currentblockend).toNat`, which is an upper bound on the number
  of iterations whenever `blocksize >= 1` (each iteration moves
  `currentblockend` up by `blocksize`), so for positive block sizes the
  fueled loop is exactly the Python loop.  The same technique models the
  block-size construction loop of `Summariser.__init__`, whose fuel is left
  explicit because one claim is about its termination.
-/

/-- One encoded block, identified by the count vector passed to the encoder. -/
abbrev Block := List Nat

/-- Key of an output file: (chromosome, blocksize), standing for the file
name `Summ_<chromosome>_<blocksize>` built in `Summariser.__init__`. -/
abbrev FKey := String × Int

/-- The output directory: every file's ordered list of written blocks. -/
abbrev FS := List (FKey × List Block)

/-- Contents of file `k` (a file that was never opened is empty). -/
def fsGet (fs : FS) (k : FKey) : List Block :=
  match fs with
  | [] => []
  | e :: rest => if e.1 = k then e.2 else fsGet rest k

/-- Replace the contents of file `k` by `v`. -/
def fsSet (fs : FS) (k : FKey) (v : List Block) : FS :=
  match fs with
  | [] => [(k, v)]
  | e :: rest => if e.1 = k then (k, v) :: rest else e :: fsSet rest k v

/-- Append one block to file `k`: a single `outputfile.write` call. -/
def fsApp (fs : FS) (k : FKey) (b : Block) : FS :=
  fsSet fs k (fsGet fs k ++ [b])

/-- Total number of record counts stored in a list of blocks. -/
def blocksTotal (bs : List Block) : Nat :=
  (bs.map List.sum).sum

/-- The global configuration derived from the command line: the category
list (`categories = sys.argv[5].split(';')`) and the catch-all index
`otherCategoryNr` (a parameter here; the script's own scan for it is
modelled separately as `otherCategoryScan`). -/
structure Config where
  categories : List String
  otherCategoryNr : Option Nat

/-- Lookup in `categorymap = {categories[i]: i for i in range(len(categories))}`:
builds the dictionary in index order (a later duplicate key overwrites an
earlier one) and looks `val` up, i.e. returns the last index whose label
equals `val`. -/
def categorymapGet (cats : List String) (val : String) : Option Nat :=
  cats.enum.foldl (fun acc p => if p.2 = val then some p.1 else acc) none

/-- The category index a value resolves to in `Summariser.Add`: the catalog
match if `val in categorymap`, else the catch-all index if configured. -/
def resolveNr (cfg : Config) (val : String) : Option Nat :=
  match categorymapGet cfg.categories val with
  | some i => some i
  | none => cfg.otherCategoryNr

/-- How much one record with value `val` adds to the total of a count vector
of length `n`: one if it resolves to an in-range index, otherwise zero. -/
def incOf (cfg : Config) (val : String) (n : Nat) : Nat :=
  match resolveNr cfg val with
  | some i => if i < n then 1 else 0
  | none => 0

/-- One zoom level of a `Summariser`: block width, exclusive end of the
block in progress, running count vector, and the key of its output file. -/
structure Level where
  blocksize : Int
  currentblockend : Int
  catcounts : List Nat
  fkey : FKey
deriving DecidableEq

/-- `Summariser.CloseCurrentBlock`: write the encoded current counts to the
level's output file. -/
def closeCurrentBlock (fs : FS) (l : Level) : FS :=
  fsApp fs l.fkey l.catcounts

/-- `Summariser.StartNextBlock`: advance the block boundary and zero the
counts (`[0] * len(categories)`). -/
def startNextBlock (ncats : Nat) (l : Level) : Level :=
  { l with currentblockend := l.currentblockend + l.blocksize,
           catcounts := List.replicate ncats 0 }

/-- Fueled form of the `while pos >= level.currentblockend` loop in
`Summariser.Add`; each iteration closes the current block and starts the
next one. -/
def advanceAux (ncats : Nat) (pos : Int) : Nat → FS → Level → FS × Level
  | 0, fs, l => (fs, l)
  | fuel + 1, fs, l =>
    if l.currentblockend ≤ pos then
      advanceAux ncats pos fuel (closeCurrentBlock fs l) (startNextBlock ncats l)
    else (fs, l)

/-- The block-closing loop of `Summariser.Add` for one level, run with fuel
`(pos + 1 - currentblockend).toNat`, which bounds the iteration count
whenever `blocksize ≥ 1` (see `advanceAux_spec`). -/
def Level.advance (ncats : Nat) (pos : Int) (fs : FS) (l : Level) : FS × Level :=
  advanceAux ncats pos (pos + 1 - l.currentblockend).toNat fs l

/-- The counting step of `Summariser.Add` for one level:
`catcounts[categorymap[val]] += 1` if the value is in the catalog, else
`catcounts[otherCategoryNr] += 1` if a catch-all is configured, else
nothing.  (`List.set` out of range is a no-op; in every reachable state the
resolved index is below the vector length, so this matches Python's list
indexing.) -/
def Level.increment (cfg : Config) (val : String) (l : Level) : Level :=
  match categorymapGet cfg.categories val with
  | some i => { l with catcounts := l.catcounts.set i (l.catcounts.getD i 0 + 1) }
  | none =>
    match cfg.otherCategoryNr with
    | some i => { l with catcounts := l.catcounts.set i (l.catcounts.getD i 0 + 1) }
    | none => l

/-- Per-chromosome pyramid state (`class Summariser`). -/
structure Summariser where
  chromosome : String
  lastpos : Int
  levels : List Level
deriving DecidableEq

/-- The level-construction body of `Summariser.__init__` applied to an
explicit list of block sizes: creates one level per size, with
`currentblockend = blocksize`, zeroed counts, and a freshly opened
(truncated) output file `Summ_<chromosome>_<blocksize>`. -/
def initLevels (ncats : Nat) (chrom : String) : FS → List Int → FS × List Level
  | fs, [] => (fs, [])
  | fs, w :: rest =>
    let fs1 := fsSet fs (chrom, w) []
    let lv : Level := ⟨w, w, List.replicate ncats 0, (chrom, w)⟩
    let (fs2, lvls) := initLevels ncats chrom fs1 rest
    (fs2, lv :: lvls)

/-- `Summariser.__init__`: `lastpos = -1` and one level per block size.
The block-size list is the geometric progression the constructor's `while`
loop computes from the global configuration (see `mkWidthsAux`); since it is
the same for every chromosome it is passed explicitly. -/
def Summariser.init (ncats : Nat) (chrom : String) (widths : List Int) (fs : FS) :
    FS × Summariser :=
  let p := initLevels ncats chrom fs widths
  (p.1, { chromosome := chrom, lastpos := -1, levels := p.2 })

/-- Errors the script can raise while processing records. -/
inductive Err where
  /-- `raise Exception('Positions should be strictly ordered')` -/
  | outOfOrderPosition
  /-- `raise Exception('File should be ordered by chromosome')` -/
  | chromosomeRepeat
  /-- `summariser.Add` on `summariser = None` (Python `AttributeError`). -/
  | noneActive
deriving DecidableEq

/-- The `for level in self.levels` body of `Summariser.Add`: advance the
block boundary past `pos`, then count the record. -/
def addLevels (cfg : Config) (pos : Int) (val : String) : FS → List Level → FS × List Level
  | fs, [] => (fs, [])
  | fs, l :: rest =>
    let p := Level.advance cfg.categories.length pos fs l
    let l2 := Level.increment cfg val p.2
    let q := addLevels cfg pos val p.1 rest
    (q.1, l2 :: q.2)

/-- `Summariser.Add`: raise if `pos <= self.lastpos`, else process every
level.  Note that the source never assigns `self.lastpos = pos`, so the
returned state keeps the old `lastpos` (which stays `-1` forever). -/
def Summariser.Add (cfg : Config) (pos : Int) (val : String) (fs : FS) (s : Summariser) :
    Except Err (FS × Summariser) :=
  if pos ≤ s.lastpos then .error .outOfOrderPosition
  else
    let p := addLevels cfg pos val fs s.levels
    .ok (p.1, { s with levels := p.2 })

/-- The `for level in self.levels` body of `Summariser.Finalise`: close the
current (possibly partial) block of every level. -/
def finaliseLevels : FS → List Level → FS
  | fs, [] => fs
  | fs, l :: rest => finaliseLevels (closeCurrentBlock fs l) rest

/-- `Summariser.Finalise`: emit every level's residual block and close the
files. -/
def Summariser.Finalise (fs : FS) (s : Summariser) : FS :=
  finaliseLevels fs s.levels

/-- Run a list of `(pos, val)` records through `Summariser.Add`. -/
def runAdds (cfg : Config) : List (Int × String) → FS → Summariser → Except Err (FS × Summariser)
  | [], fs, s => .ok (fs, s)
  | r :: rest, fs, s =>
    match Summariser.Add cfg r.1 r.2 fs s with
    | .ok p => runAdds cfg rest p.1 p.2
    | .error e => .error e

/-- One input record: `chromosome\tposition\tvalue`. -/
structure Record where
  chromosome : String
  pos : Int
  val : String
deriving DecidableEq

/-- State of the main loop: output files, `currentChromosome`, the active
`summariser` (if any), and `processedChromosomes`. -/
structure DriverState where
  fs : FS
  currentChromosome : String
  summariser : Option Summariser
  processedChromosomes : List String
deriving DecidableEq

/-- State before the main loop: `currentChromosome = ''`,
`summariser = None`, `processedChromosomes = {}`; the startup code removed
every `Summ_` file, so the directory is empty. -/
def initialState : DriverState :=
  { fs := [], currentChromosome := "", summariser := none, processedChromosomes := [] }

/-- One iteration of the main loop for a record.  On a chromosome change the
loop (in this order, as in the source) finalises the active summariser,
constructs the new one (truncating that chromosome's output files), and only
then checks `processedChromosomes`, raising `chromosomeRepeat` on a repeat;
the raise aborts before `processedChromosomes` and `currentChromosome` are
updated.  Otherwise the record goes to the active summariser's `Add`.  An
error carries the driver state (in particular the file system) at the point
of the raise. -/
def driverStep (cfg : Config) (widths : List Int) (st : DriverState) (r : Record) :
    Except (Err × DriverState) DriverState :=
  let trans : Except (Err × DriverState) DriverState :=
    if r.chromosome = st.currentChromosome then .ok st
    else
      let fs1 := match st.summariser with
                 | some s => Summariser.Finalise st.fs s
                 | none => st.fs
      let p := Summariser.init cfg.categories.length r.chromosome widths fs1
      if r.chromosome ∈ st.processedChromosomes then
        .error (.chromosomeRepeat,
          { fs := p.1, currentChromosome := st.currentChromosome,
            summariser := some p.2,
            processedChromosomes := st.processedChromosomes })
      else
        .ok { fs := p.1, currentChromosome := r.chromosome,
              summariser := some p.2,
              processedChromosomes := r.chromosome :: st.processedChromosomes }
  match trans with
  | .error e => .error e
  | .ok st1 =>
    match st1.summariser with
    | none => .error (.noneActive, st1)
    | some s =>
      match Summariser.Add cfg r.pos r.val st1.fs s with
      | .error e => .error (e, st1)
      | .ok p => .ok { st1 with fs := p.1, summariser := some p.2 }

/-- The main `while True` loop over the record stream. -/
def runRecords (cfg : Config) (widths : List Int) :
    List Record → DriverState → Except (Err × DriverState) DriverState
  | [], st => .ok st
  | r :: rest, st =>
    match driverStep cfg widths st r with
    | .ok st1 => runRecords cfg widths rest st1
    | .error e => .error e

/-- The whole driver: the main loop followed by the trailing
`if summariser != None: summariser.Finalise()` (which does not run when the
loop raised, since the script has no try/finally). -/
def runDriver (cfg : Config) (widths : List Int) (rs : List Record) :
    Except (Err × DriverState) DriverState :=
  match runRecords cfg widths rs initialState with
  | .ok st =>
    .ok { st with fs := match st.summariser with
                        | some s => Summariser.Finalise st.fs s
                        | none => st.fs }
  | .error e => .error e

/-- Fueled form of the block-size construction loop in
`Summariser.__init__`: `while blocksize <= blockSizeMax: append; blocksize
*= blockSizeIncrFactor`.  Returns `none` when the fuel runs out with the
loop still running (the loop would keep going), `some` with the produced
sizes when the loop's guard exits. -/
def mkWidthsAux (factor bmax : Int) : Nat → Int → Option (List Int)
  | 0, bs => if bs ≤ bmax then none else some []
  | fuel + 1, bs =>
    if bs ≤ bmax then (mkWidthsAux factor bmax fuel (bs * factor)).map (fun ws => bs :: ws)
    else some []

/-- The block-size list of `Summariser.__init__`, with fuel
`(bmax + 1 - start).toNat`, which bounds the iteration count whenever the
loop terminates with `start ≥ 1` and `factor ≥ 2` (each step at least
doubles `blocksize`, so it grows by at least one). -/
def mkWidths (start factor bmax : Int) : Option (List Int) :=
  mkWidthsAux factor bmax (bmax + 1 - start).toNat start

/-- A Python value, as far as the startup scan needs one: an integer or the
list `categories`. -/
inductive PyVal where
  | int : Int → PyVal
  | strList : List String → PyVal

/-- Python's builtin `range`, on the values the scan can hand it: `range(n)`
for an integer, a `TypeError` for a list (a list object cannot be
interpreted as an integer). -/
def pyRange : PyVal → Except String (List Nat)
  | .int n => .ok (List.range n.toNat)
  | .strList _ => .error ("TypeError: 'list' object cannot be interpreted as an integer")

/-- The startup scan for the catch-all label, exactly as written at lines
31 to 34 of the source: `for i in range(categories): if categories[i] ==
'_other_': otherCategoryNr = i` — note `range(categories)`, the list itself,
not `range(len(categories))`. -/
def otherCategoryScan (categories : List String) : Except String (Option Nat) :=
  match pyRange (.strList categories) with
  | .error e => .error e
  | .ok idxs =>
    .ok (idxs.foldl
      (fun acc i => if categories.getD i ("") = "_other_" then some i else acc) none)

/-- Observation helper: is an `Except` a success? -/
def exceptIsOk {ε α : Type} : Except ε α → Bool
  | .ok _ => true
  | .error _ => false

/-- Observation helper: the `lastpos` of a successful `Add`/`runAdds` result. -/
def okLastpos : Except Err (FS × Summariser) → Option Int
  | .ok p => some p.2.lastpos
  | .error _ => none

/-- Observation helper: the error of a driver run, if any. -/
def resultErr : Except (Err × DriverState) DriverState → Option Err
  | .ok _ => none
  | .error e => some e.1

/-- Observation helper: the file system after a driver run (at the point of
the raise, for a failed run). -/
def resultFS : Except (Err × DriverState) DriverState → FS
  | .ok st => st.fs
  | .error e => e.2.fs

/-- The last element of a list, with default `d`: used for the final value
of `currentChromosome` (last chromosome label) and for the final position of
a record stream. -/
def lastD {α : Type} (d : α) : List α → α
  | [] => d
  | x :: xs => lastD x xs

/-- Observation helper: the file system of a successful `runAdds`. -/
def okFS (r : Except Err (FS × Summariser)) : FS :=
  match r with
  | .ok p => p.1
  | .error _ => []

/-- Observation helper: the file system of a successful `runAdds` after
`Summariser.Finalise`. -/
def okFinalFS (r : Except Err (FS × Summariser)) : FS :=
  match r with
  | .ok p => Summariser.Finalise p.1 p.2
  | .error _ => []

/-- Observation helper: the file system of a completed main loop after the
trailing `if summariser != None: summariser.Finalise()`. -/
def finalisedFS (r : Except (Err × DriverState) DriverState) : FS :=
  match r with
  | .ok st =>
    match st.summariser with
    | some s => Summariser.Finalise st.fs s
    | none => st.fs
  | .error e => e.2.fs

/-- Demo configuration: catalog `["A"]`, no catch-all. -/
def cfgA : Config := { categories := ["A"], otherCategoryNr := none }

/-- Demo configuration: catalog `["A", "B"]`, no catch-all. -/
def cfgAB : Config := { categories := ["A", "B"], otherCategoryNr := none }

/-- Invariant of one level after the records of one chromosome, all with
positions in `(0, P]` and none beyond `P`, have been fed to `Add`: the block
boundary sits one block width past the blocks already written to the level's
file, the boundary brackets `P`, and the written blocks plus the running
counts together hold `cnt` records. -/
def LevelInv (chrom : String) (n : Nat) (P : Int) (cnt : Nat) (fs : FS) (l : Level) : Prop :=
  1 ≤ l.blocksize ∧
  l.fkey = (chrom, l.blocksize) ∧
  l.catcounts.length = n ∧
  l.currentblockend = l.blocksize * (((fsGet fs l.fkey).length : Int) + 1) ∧
  l.blocksize * ((fsGet fs l.fkey).length : Int) ≤ P ∧
  P < l.currentblockend ∧
  blocksTotal (fsGet fs l.fkey) + l.catcounts.sum = cnt

/-- Invariant of a whole `Summariser` between `Add` calls: `lastpos` is
still `-1` (the source never assigns it), the levels carry the configured
block sizes in order, and every level satisfies `LevelInv`. -/
def SummInv (cfg : Config) (chrom : String) (widths : List Int) (P : Int) (cnt : Nat)
    (fs : FS) (s : Summariser) : Prop :=
  s.lastpos = -1 ∧
  s.levels.map (fun l => l.blocksize) = widths ∧
  ∀ l ∈ s.levels, LevelInv chrom cfg.categories.length P cnt fs l

/-- Invariant of the main loop's state: the active chromosome has been
recorded in `processedChromosomes`, except in the start state where there is
no active summariser. -/
def DriverInv (st : DriverState) : Prop :=
  st.currentChromosome ∈ st.processedChromosomes ∨
  (st.currentChromosome = "" ∧ st.summariser = none)

/-! ### File-system lemmas -/

theorem fsGet_fsSet_self : ∀ (fs : FS) (k : FKey) (v : List Block), fsGet (fsSet fs k v) k = v := by
  intro fs
  induction fs with
  | nil => intro k v; simp [fsSet, fsGet]
  | cons e rest ih =>
    intro k v
    by_cases h : e.1 = k
    · simp [fsSet, fsGet, h]
    · simp [fsSet, fsGet, h, ih]

theorem fsGet_fsSet_ne :
    ∀ (fs : FS) (k : FKey) (v : List Block) (k2 : FKey), k2 ≠ k →
      fsGet (fsSet fs k v) k2 = fsGet fs k2 := by
  intro fs
  induction fs with
  | nil =>
    intro k v k2 hne
    have h0 : ¬ (k = k2) := fun h => hne h.symm
    simp [fsSet, fsGet, h0]
  | cons e rest ih =>
    intro k v k2 hne
    by_cases h : e.1 = k
    · have h2 : ¬ (k = k2) := fun hh => hne hh.symm
      have h3 : ¬ (e.1 = k2) := by rw [h]; exact h2
      simp [fsSet, fsGet, h, h2, h3]
    · by_cases h3 : e.1 = k2
      · have h4 : ¬ (k2 = k) := hne
        simp [fsSet, fsGet, h, h3, h4]
      · simp [fsSet, fsGet, h, h3, ih k v k2 hne]

theorem fsGet_fsApp_self (fs : FS) (k : FKey) (b : Block) :
    fsGet (fsApp fs k b) k = fsGet fs k ++ [b] := by
  simp [fsApp, fsGet_fsSet_self]

theorem fsGet_fsApp_ne (fs : FS) (k : FKey) (b : Block) (k2 : FKey) (hne : k2 ≠ k) :
    fsGet (fsApp fs k b) k2 = fsGet fs k2 := by
  simp [fsApp, fsGet_fsSet_ne _ _ _ _ hne]

theorem blocksTotal_append (bs : List Block) (b : Block) :
    blocksTotal (bs ++ [b]) = blocksTotal bs + b.sum := by
  simp [blocksTotal]

/-! ### List sum lemmas for the counting step -/

theorem sum_set_getD_add_one :
    ∀ (l : List Nat) (i : Nat), i < l.length →
      (l.set i (l[i]?.getD 0 + 1)).sum = l.sum + 1 := by
  intro l
  induction l with
  | nil => intro i h; simp at h
  | cons a t ih =>
    intro i h
    cases i with
    | zero => simp [List.sum_cons]; omega
    | succ j =>
      simp only [List.set, List.getElem?_cons_succ, List.sum_cons]
      have := ih j (by simpa using h)
      omega

theorem set_of_length_le : ∀ (l : List Nat) (i : Nat) (x : Nat), l.length ≤ i → l.set i x = l := by
  intro l
  induction l with
  | nil => intro i x _; simp
  | cons a t ih =>
    intro i x h
    cases i with
    | zero => simp at h
    | succ j => simp [List.set, ih j x (by simpa using h)]

theorem sum_map_const_one (α : Type) :
    ∀ (l : List α) (f : α → Nat), (∀ x ∈ l, f x = 1) → (l.map f).sum = l.length := by
  intro l
  induction l with
  | nil => intro f _; simp
  | cons a t ih =>
    intro f h
    simp only [List.map_cons, List.sum_cons, List.length_cons, h a (by simp)]
    rw [ih f (fun x hx => h x (by simp [hx]))]
    omega

/-! ### `Level.increment` lemmas -/

theorem increment_fields (cfg : Config) (val : String) (l : Level) :
    (Level.increment cfg val l).blocksize = l.blocksize ∧
    (Level.increment cfg val l).currentblockend = l.currentblockend ∧
    (Level.increment cfg val l).fkey = l.fkey ∧
    (Level.increment cfg val l).catcounts.length = l.catcounts.length := by
  unfold Level.increment
  rcases categorymapGet cfg.categories val with _ | i
  · rcases cfg.otherCategoryNr with _ | j
    · exact ⟨rfl, rfl, rfl, rfl⟩
    · simp
  · simp

theorem increment_sum (cfg : Config) (val : String) (l : Level) (n : Nat)
    (hlen : l.catcounts.length = n) :
    (Level.increment cfg val l).catcounts.sum = l.catcounts.sum + incOf cfg val n := by
  unfold Level.increment incOf resolveNr
  rcases hcm : categorymapGet cfg.categories val with _ | i
  · rcases ho : cfg.otherCategoryNr with _ | j
    · simp
    · simp only []
      by_cases hj : j < n
      · simp [sum_set_getD_add_one _ _ (by omega : j < l.catcounts.length), hj]
      · simp [set_of_length_le _ _ _ (by omega : l.catcounts.length ≤ j), hj]
  · simp only []
    by_cases hi : i < n
    · simp [sum_set_getD_add_one _ _ (by omega : i < l.catcounts.length), hi]
    · simp [set_of_length_le _ _ _ (by omega : l.catcounts.length ≤ i), hi]

theorem increment_of_unresolved (cfg : Config) (val : String) (l : Level)
    (hcm : categorymapGet cfg.categories val = none)
    (ho : cfg.otherCategoryNr = none) :
    Level.increment cfg val l = l := by
  unfold Level.increment
  rw [hcm, ho]

/-! ### Lemmas about the block-closing loop of `Summariser.Add` -/

theorem advanceAux_fields (n : Nat) (pos : Int) :
    ∀ (fuel : Nat) (fs : FS) (l : Level),
      (advanceAux n pos fuel fs l).2.blocksize = l.blocksize ∧
      (advanceAux n pos fuel fs l).2.fkey = l.fkey := by
  intro fuel
  induction fuel with
  | zero => intro fs l; exact ⟨rfl, rfl⟩
  | succ m ih =>
    intro fs l
    by_cases h : l.currentblockend ≤ pos
    · simp only [advanceAux, if_pos h]
      have := ih (closeCurrentBlock fs l) (startNextBlock n l)
      simpa [startNextBlock] using this
    · simp [advanceAux, if_neg h]

theorem advanceAux_frame (n : Nat) (pos : Int) :
    ∀ (fuel : Nat) (fs : FS) (l : Level) (k : FKey), k ≠ l.fkey →
      fsGet (advanceAux n pos fuel fs l).1 k = fsGet fs k := by
  intro fuel
  induction fuel with
  | zero => intro fs l k _; rfl
  | succ m ih =>
    intro fs l k hk
    by_cases h : l.currentblockend ≤ pos
    · simp only [advanceAux, if_pos h]
      have hk2 : k ≠ (startNextBlock n l).fkey := by simpa [startNextBlock] using hk
      rw [ih (closeCurrentBlock fs l) (startNextBlock n l) k hk2]
      exact fsGet_fsApp_ne fs l.fkey l.catcounts k hk
    · simp [advanceAux, if_neg h]

theorem advanceAux_total (n : Nat) (pos : Int) :
    ∀ (fuel : Nat) (fs : FS) (l : Level),
      blocksTotal (fsGet (advanceAux n pos fuel fs l).1 l.fkey)
          + (advanceAux n pos fuel fs l).2.catcounts.sum
        = blocksTotal (fsGet fs l.fkey) + l.catcounts.sum := by
  intro fuel
  induction fuel with
  | zero => intro fs l; rfl
  | succ m ih =>
    intro fs l
    by_cases h : l.currentblockend ≤ pos
    · simp only [advanceAux, if_pos h]
      have hih := ih (closeCurrentBlock fs l) (startNextBlock n l)
      have hkey : (startNextBlock n l).fkey = l.fkey := rfl
      rw [hkey] at hih
      rw [hih]
      have hget : fsGet (closeCurrentBlock fs l) l.fkey = fsGet fs l.fkey ++ [l.catcounts] :=
        fsGet_fsApp_self fs l.fkey l.catcounts
      rw [hget, blocksTotal_append]
      simp [startNextBlock]
    · simp [advanceAux, if_neg h]

theorem advanceAux_len (n : Nat) (pos : Int) :
    ∀ (fuel : Nat) (fs : FS) (l : Level), l.catcounts.length = n →
      (advanceAux n pos fuel fs l).2.catcounts.length = n := by
  intro fuel
  induction fuel with
  | zero => intro fs l h; exact h
  | succ m ih =>
    intro fs l h
    by_cases hc : l.currentblockend ≤ pos
    · simp only [advanceAux, if_pos hc]
      exact ih (closeCurrentBlock fs l) (startNextBlock n l) (by simp [startNextBlock])
    · simpa [advanceAux, if_neg hc] using h

theorem advanceAux_spec (n : Nat) (pos : Int) :
    ∀ (fuel : Nat) (fs : FS) (l : Level),
      1 ≤ l.blocksize →
      (pos + 1 - l.currentblockend).toNat ≤ fuel →
      l.currentblockend = l.blocksize * (((fsGet fs l.fkey).length : Int) + 1) →
      (advanceAux n pos fuel fs l).2.currentblockend
          = l.blocksize * (((fsGet (advanceAux n pos fuel fs l).1 l.fkey).length : Int) + 1) ∧
        pos < (advanceAux n pos fuel fs l).2.currentblockend ∧
        (l.currentblockend ≤ pos →
          (advanceAux n pos fuel fs l).2.currentblockend - l.blocksize ≤ pos) ∧
        (pos < l.currentblockend → advanceAux n pos fuel fs l = (fs, l)) := by
  intro fuel
  induction fuel with
  | zero =>
    intro fs l hw hfuel hend
    have hlt : pos < l.currentblockend := by omega
    refine ⟨hend, hlt, ?_, ?_⟩
    · intro hc; omega
    · intro _; rfl
  | succ m ih =>
    intro fs l hw hfuel hend
    by_cases h : l.currentblockend ≤ pos
    · simp only [advanceAux, if_pos h]
      set l1 := startNextBlock n l with hl1
      set fs1 := closeCurrentBlock fs l with hfs1
      have hkey : l1.fkey = l.fkey := rfl
      have hbs : l1.blocksize = l.blocksize := rfl
      have hend1 : l1.currentblockend = l.currentblockend + l.blocksize := rfl
      have hget : fsGet fs1 l.fkey = fsGet fs l.fkey ++ [l.catcounts] :=
        fsGet_fsApp_self fs l.fkey l.catcounts
      have hend1m : l1.currentblockend
          = l1.blocksize * (((fsGet fs1 l1.fkey).length : Int) + 1) := by
        rw [hend1, hbs, hkey, hget]
        rw [hend] at h ⊢
        simp only [List.length_append, List.length_cons, List.length_nil]
        push_cast
        ring
      have hfuel1 : (pos + 1 - l1.currentblockend).toNat ≤ m := by
        rw [hend1]
        omega
      have hrec := ih fs1 l1 (by rw [hbs]; exact hw) hfuel1 hend1m
      refine ⟨?_, ?_, ?_, ?_⟩
      · rw [← hkey, ← hbs]; exact hrec.1
      · exact hrec.2.1
      · intro _
        by_cases h1 : l1.currentblockend ≤ pos
        · have := hrec.2.2.1 h1
          rw [hbs] at this
          exact this
        · have heq := hrec.2.2.2 (by omega)
          rw [heq]
          simp only []
          rw [hend1]
          omega
      · intro hlt; omega
    · simp only [advanceAux, if_neg h]
      push_neg at h
      refine ⟨hend, h, ?_, ?_⟩
      · intro hc; omega
      · intro _; trivial

/-! ### Invariant preservation through one `Add` -/

theorem LevelInv_congr (chrom : String) (n : Nat) (P : Int) (cnt : Nat)
    (fs fs2 : FS) (l : Level) (h : fsGet fs2 l.fkey = fsGet fs l.fkey) :
    LevelInv chrom n P cnt fs l → LevelInv chrom n P cnt fs2 l := by
  intro hi
  obtain ⟨h1, h2, h3, h4, h5, h6, h7⟩ := hi
  exact ⟨h1, h2, h3, by rw [h]; exact h4, by rw [h]; exact h5, h6, by rw [h]; exact h7⟩

theorem addLevels_inv (cfg : Config) (chrom : String) (pos : Int) (val : String) :
    ∀ (lvls : List Level) (fs : FS) (P : Int) (cnt : Nat),
      0 ≤ P → P ≤ pos →
      (∀ l ∈ lvls, LevelInv chrom cfg.categories.length P cnt fs l) →
      (lvls.map (fun l => l.fkey)).Pairwise (fun a b => a ≠ b) →
      (addLevels cfg pos val fs lvls).2.map (fun l => l.blocksize)
          = lvls.map (fun l => l.blocksize) ∧
      (∀ l2 ∈ (addLevels cfg pos val fs lvls).2,
        LevelInv chrom cfg.categories.length pos (cnt + incOf cfg val cfg.categories.length)
          (addLevels cfg pos val fs lvls).1 l2) ∧
      (∀ k, (∀ l ∈ lvls, k ≠ l.fkey) → fsGet (addLevels cfg pos val fs lvls).1 k = fsGet fs k) := by
  intro lvls
  induction lvls with
  | nil =>
    intro fs P cnt _ _ _ _
    refine ⟨rfl, ?_, ?_⟩
    · intro l2 h2; simp [addLevels] at h2
    · intro k _; rfl
  | cons l rest ih =>
    intro fs P cnt hP hpos hinv hpw
    obtain ⟨hw, hkey, hlen, hend, hlo, hhi, htot⟩ := hinv l (by simp)
    have hpwrest : (rest.map (fun x => x.fkey)).Pairwise (fun a b => a ≠ b) :=
      (List.pairwise_cons.mp hpw).2
    have hheadne : ∀ x ∈ rest, l.fkey ≠ x.fkey := by
      intro x hx
      exact (List.pairwise_cons.mp hpw).1 x.fkey (List.mem_map_of_mem _ hx)
    -- the advance step
    have hadv : Level.advance cfg.categories.length pos fs l
        = advanceAux cfg.categories.length pos (pos + 1 - l.currentblockend).toNat fs l := rfl
    have hfields := advanceAux_fields cfg.categories.length pos
      (pos + 1 - l.currentblockend).toNat fs l
    have hframe := advanceAux_frame cfg.categories.length pos
      (pos + 1 - l.currentblockend).toNat fs l
    have htotal := advanceAux_total cfg.categories.length pos
      (pos + 1 - l.currentblockend).toNat fs l
    have hlength := advanceAux_len cfg.categories.length pos
      (pos + 1 - l.currentblockend).toNat fs l hlen
    have hspec := advanceAux_spec cfg.categories.length pos
      (pos + 1 - l.currentblockend).toNat fs l hw le_rfl hend
    set p := Level.advance cfg.categories.length pos fs l with hpdef
    rw [← hadv] at hfields hframe htotal hlength hspec
    -- the counting step
    set l2 := Level.increment cfg val p.2 with hl2def
    have hinc := increment_fields cfg val p.2
    have hincsum := increment_sum cfg val p.2 cfg.categories.length hlength
    -- the remaining levels
    set q := addLevels cfg pos val p.1 rest with hqdef
    have hstep : addLevels cfg pos val fs (l :: rest) = (q.1, l2 :: q.2) := rfl
    have hrestinv : ∀ x ∈ rest, LevelInv chrom cfg.categories.length P cnt p.1 x := by
      intro x hx
      refine LevelInv_congr chrom _ P cnt fs p.1 x ?_ (hinv x (by simp [hx]))
      exact hframe x.fkey (fun hh => hheadne x hx hh.symm)
    have hrec := ih p.1 P cnt hP hpos hrestinv hpwrest
    rw [← hqdef] at hrec
    -- the head level's file is untouched by the remaining levels
    have hqframe : fsGet q.1 l.fkey = fsGet p.1 l.fkey := by
      refine hrec.2.2 l.fkey ?_
      intro x hx
      exact hheadne x hx
    -- the head level satisfies the new invariant
    have hlofinal : l.blocksize * ((fsGet p.1 l.fkey).length : Int) ≤ pos := by
      by_cases hcl : l.currentblockend ≤ pos
      · have h3 := hspec.2.2.1 hcl
        have h1 := hspec.1
        have : l.blocksize * (((fsGet p.1 l.fkey).length : Int) + 1) - l.blocksize
            = l.blocksize * ((fsGet p.1 l.fkey).length : Int) := by ring
        omega
      · have h4 := hspec.2.2.2 (by omega)
        have : fsGet p.1 l.fkey = fsGet fs l.fkey := by rw [h4]
        rw [this]
        omega
    have hheadinv : LevelInv chrom cfg.categories.length pos
        (cnt + incOf cfg val cfg.categories.length) q.1 l2 := by
      refine ⟨?_, ?_, ?_, ?_, ?_, ?_, ?_⟩
      · rw [hinc.1, hfields.1]; exact hw
      · rw [hinc.2.2.1, hfields.2, hinc.1, hfields.1]; exact hkey
      · rw [hinc.2.2.2]; exact hlength
      · rw [hinc.2.1, hinc.2.2.1, hfields.2, hinc.1, hfields.1, hqframe]
        exact hspec.1
      · rw [hinc.1, hfields.1, hinc.2.2.1, hfields.2, hqframe]
        exact hlofinal
      · rw [hinc.2.1]
        exact hspec.2.1
      · rw [hinc.2.2.1, hfields.2, hqframe, hincsum]
        have := htotal
        omega
    refine ⟨?_, ?_, ?_⟩
    · rw [hstep]
      simp only [List.map_cons]
      rw [hrec.1, hinc.1, hfields.1]
    · rw [hstep]
      intro x hx
      rcases List.mem_cons.mp hx with hx1 | hx2
      · rw [hx1]; exact hheadinv
      · exact hrec.2.1 x hx2
    · rw [hstep]
      intro k hk
      have h1 : fsGet q.1 k = fsGet p.1 k := by
        refine hrec.2.2 k ?_
        intro x hx
        exact hk x (by simp [hx])
      have h2 : fsGet p.1 k = fsGet fs k := hframe k (hk l (by simp))
      rw [h1, h2]

theorem SummInv_fkeys_pairwise (cfg : Config) (chrom : String) (widths : List Int)
    (P : Int) (cnt : Nat) (fs : FS) (s : Summariser)
    (hinv : SummInv cfg chrom widths P cnt fs s)
    (hdist : widths.Pairwise (fun a b => a ≠ b)) :
    (s.levels.map (fun l => l.fkey)).Pairwise (fun a b => a ≠ b) := by
  obtain ⟨_, hmap, hall⟩ := hinv
  rw [List.pairwise_map]
  have hbs : s.levels.Pairwise (fun a b => a.blocksize ≠ b.blocksize) := by
    have := hmap ▸ hdist
    rwa [List.pairwise_map] at this
  refine hbs.imp_of_mem ?_
  intro a b ha hb hne
  have hka := (hall a ha).2.1
  have hkb := (hall b hb).2.1
  rw [hka, hkb]
  intro hc
  exact hne (congrArg Prod.snd hc)

theorem summAdd_inv (cfg : Config) (chrom : String) (widths : List Int)
    (P : Int) (cnt : Nat) (fs : FS) (s : Summariser) (pos : Int) (val : String)
    (hinv : SummInv cfg chrom widths P cnt fs s)
    (hdist : widths.Pairwise (fun a b => a ≠ b))
    (hP : 0 ≤ P) (hpos : P ≤ pos) :
    ∃ fs2 s2, Summariser.Add cfg pos val fs s = .ok (fs2, s2) ∧
      s2.chromosome = s.chromosome ∧
      SummInv cfg chrom widths pos (cnt + incOf cfg val cfg.categories.length) fs2 s2 ∧
      (∀ k, (∀ l ∈ s.levels, k ≠ l.fkey) → fsGet fs2 k = fsGet fs k) := by
  obtain ⟨hlast, hmap, hall⟩ := hinv
  have hnotle : ¬ (pos ≤ s.lastpos) := by rw [hlast]; omega
  have hpw := SummInv_fkeys_pairwise cfg chrom widths P cnt fs s ⟨hlast, hmap, hall⟩ hdist
  have hrec := addLevels_inv cfg chrom pos val s.levels fs P cnt hP hpos hall hpw
  refine ⟨(addLevels cfg pos val fs s.levels).1,
    { s with levels := (addLevels cfg pos val fs s.levels).2 }, ?_, rfl, ?_, hrec.2.2⟩
  · unfold Summariser.Add
    rw [if_neg hnotle]
  · exact ⟨hlast, by rw [hrec.1]; exact hmap, hrec.2.1⟩

theorem initLevels_spec (ncats : Nat) (chrom : String) :
    ∀ (ws : List Int) (fs : FS),
      (initLevels ncats chrom fs ws).2
          = ws.map (fun w => ⟨w, w, List.replicate ncats 0, (chrom, w)⟩) ∧
      (∀ w ∈ ws, fsGet (initLevels ncats chrom fs ws).1 (chrom, w) = []) ∧
      (∀ k : FKey, (∀ w ∈ ws, k ≠ (chrom, w)) →
        fsGet (initLevels ncats chrom fs ws).1 k = fsGet fs k) := by
  intro ws
  induction ws with
  | nil =>
    intro fs
    refine ⟨rfl, ?_, ?_⟩
    · intro w hw; simp at hw
    · intro k _; rfl
  | cons w0 rest ih =>
    intro fs
    have hstep : initLevels ncats chrom fs (w0 :: rest)
        = ((initLevels ncats chrom (fsSet fs (chrom, w0) []) rest).1,
           (⟨w0, w0, List.replicate ncats 0, (chrom, w0)⟩ : Level)
             :: (initLevels ncats chrom (fsSet fs (chrom, w0) []) rest).2) := rfl
    have hrec := ih (fsSet fs (chrom, w0) [])
    refine ⟨?_, ?_, ?_⟩
    · rw [hstep]
      simp only [List.map_cons]
      rw [hrec.1]
    · intro w hw
      rw [hstep]
      rcases List.mem_cons.mp hw with hw1 | hw2
      · by_cases hr : w ∈ rest
        · exact hrec.2.1 w hr
        · have hne : ∀ x ∈ rest, ((chrom, w) : FKey) ≠ (chrom, x) := by
            intro x hx hc
            have : w = x := congrArg Prod.snd hc
            exact hr (this ▸ hx)
          rw [hrec.2.2 (chrom, w) hne, hw1]
          exact fsGet_fsSet_self fs (chrom, w0) []
      · exact hrec.2.1 w hw2
    · intro k hk
      rw [hstep]
      rw [hrec.2.2 k (fun x hx => hk x (by simp [hx]))]
      exact fsGet_fsSet_ne fs (chrom, w0) [] k (hk w0 (by simp))

theorem summInit_inv (cfg : Config) (chrom : String) (widths : List Int) (fs : FS)
    (hw : ∀ w ∈ widths, 1 ≤ w) :
    SummInv cfg chrom widths 0 0
      (Summariser.init cfg.categories.length chrom widths fs).1
      (Summariser.init cfg.categories.length chrom widths fs).2 := by
  have hspec := initLevels_spec cfg.categories.length chrom widths fs
  have h1 : (Summariser.init cfg.categories.length chrom widths fs).1
      = (initLevels cfg.categories.length chrom fs widths).1 := rfl
  have h2 : (Summariser.init cfg.categories.length chrom widths fs).2.levels
      = (initLevels cfg.categories.length chrom fs widths).2 := rfl
  have hmaps : ∀ (ws : List Int),
      (ws.map (fun w =>
        (⟨w, w, List.replicate cfg.categories.length 0, (chrom, w)⟩ : Level))).map
          (fun l => l.blocksize) = ws := by
    intro ws
    induction ws with
    | nil => rfl
    | cons a t iht => simp only [List.map_cons]; rw [iht]
  refine ⟨rfl, ?_, ?_⟩
  · rw [h2, hspec.1]
    exact hmaps widths
  · rw [h2, h1, hspec.1]
    intro l hl
    rcases List.mem_map.mp hl with ⟨w, hwmem, hweq⟩
    have hget : fsGet (initLevels cfg.categories.length chrom fs widths).1 (chrom, w) = [] :=
      hspec.2.1 w hwmem
    rw [← hweq]
    refine ⟨hw w hwmem, rfl, by simp, ?_, ?_, ?_, ?_⟩ <;> dsimp only
    · rw [hget]; simp
    · rw [hget]; simp
    · exact lt_of_lt_of_le zero_lt_one (hw w hwmem)
    · rw [hget]; simp [blocksTotal]

theorem finaliseLevels_spec :
    ∀ (lvls : List Level) (fs : FS),
      (lvls.map (fun l => l.fkey)).Pairwise (fun a b => a ≠ b) →
      (∀ l ∈ lvls, fsGet (finaliseLevels fs lvls) l.fkey = fsGet fs l.fkey ++ [l.catcounts]) ∧
      (∀ k, (∀ l ∈ lvls, k ≠ l.fkey) → fsGet (finaliseLevels fs lvls) k = fsGet fs k) := by
  intro lvls
  induction lvls with
  | nil =>
    intro fs _
    refine ⟨?_, ?_⟩
    · intro l hl; simp at hl
    · intro k _; rfl
  | cons l rest ih =>
    intro fs hpw
    have hpwrest : (rest.map (fun x => x.fkey)).Pairwise (fun a b => a ≠ b) :=
      (List.pairwise_cons.mp hpw).2
    have hheadne : ∀ x ∈ rest, l.fkey ≠ x.fkey := by
      intro x hx
      exact (List.pairwise_cons.mp hpw).1 x.fkey (List.mem_map_of_mem _ hx)
    have hstep : finaliseLevels fs (l :: rest)
        = finaliseLevels (fsApp fs l.fkey l.catcounts) rest := rfl
    have hrec := ih (fsApp fs l.fkey l.catcounts) hpwrest
    refine ⟨?_, ?_⟩
    · intro x hx
      rcases List.mem_cons.mp hx with rfl | hx2
      · rw [hstep]
        rw [hrec.2 x.fkey hheadne]
        exact fsGet_fsApp_self fs x.fkey x.catcounts
      · rw [hstep]
        rw [hrec.1 x hx2]
        rw [fsGet_fsApp_ne fs l.fkey l.catcounts x.fkey (fun hh => hheadne x hx2 hh.symm)]
    · intro k hk
      rw [hstep]
      rw [hrec.2 k (fun x hx => hk x (by simp [hx]))]
      exact fsGet_fsApp_ne fs l.fkey l.catcounts k (hk l (by simp))

theorem runAdds_inv (cfg : Config) (chrom : String) (widths : List Int)
    (hdist : widths.Pairwise (fun a b => a ≠ b)) :
    ∀ (recs : List (Int × String)) (P : Int) (cnt : Nat) (fs : FS) (s : Summariser),
      0 ≤ P →
      List.Chain (fun a b => a < b) P (recs.map (fun r => r.1)) →
      SummInv cfg chrom widths P cnt fs s →
      ∃ fs2 s2, runAdds cfg recs fs s = .ok (fs2, s2) ∧
        SummInv cfg chrom widths (lastD P (recs.map (fun r => r.1)))
          (cnt + (recs.map (fun r => incOf cfg r.2 cfg.categories.length)).sum) fs2 s2 := by
  intro recs
  induction recs with
  | nil =>
    intro P cnt fs s hP _ hinv
    exact ⟨fs, s, rfl, by simpa using hinv⟩
  | cons r rest ih =>
    intro P cnt fs s hP hchain hinv
    rw [List.map_cons] at hchain
    cases hchain with
    | cons hPr hrest =>
      obtain ⟨fs1, s1, hok, _, hinv1, _⟩ :=
        summAdd_inv cfg chrom widths P cnt fs s r.1 r.2 hinv hdist hP (le_of_lt hPr)
      have hstep : runAdds cfg (r :: rest) fs s = runAdds cfg rest fs1 s1 := by
        show (match Summariser.Add cfg r.1 r.2 fs s with
          | .ok p => runAdds cfg rest p.1 p.2
          | .error e => .error e) = runAdds cfg rest fs1 s1
        rw [hok]
      obtain ⟨fs2, s2, hok2, hinv2⟩ :=
        ih r.1 (cnt + incOf cfg r.2 cfg.categories.length) fs1 s1 (by omega) hrest hinv1
      refine ⟨fs2, s2, by rw [hstep]; exact hok2, ?_⟩
      have hlast : lastD P ((r :: rest).map (fun x => x.1))
          = lastD r.1 (rest.map (fun x => x.1)) := rfl
      have hsum : cnt + ((r :: rest).map (fun x => incOf cfg x.2 cfg.categories.length)).sum
          = (cnt + incOf cfg r.2 cfg.categories.length)
              + (rest.map (fun x => incOf cfg x.2 cfg.categories.length)).sum := by
        simp only [List.map_cons, List.sum_cons]
        omega
      rw [hlast, hsum]
      exact hinv2

theorem length_eq_ediv (w L N : Int) (hw : 1 ≤ w) (hlo : w * L ≤ N) (hhi : N < w * (L + 1)) :
    L = N / w := by
  have hw0 : (0 : Int) < w := by omega
  have h1 : L ≤ N / w := by
    rw [Int.le_ediv_iff_mul_le hw0]
    have : L * w = w * L := by ring
    omega
  have h2 : N / w < L + 1 := by
    rw [Int.ediv_lt_iff_lt_mul hw0]
    have : (L + 1) * w = w * (L + 1) := by ring
    omega
  omega

/-! ### Claim C2 -/

/-- C2 counterexample: the claim's block count `⌈lastPosition / blockWidth⌉`
fails when the block width divides the last position: with one level of
width 10 and records at positions 1 and 10, the level emits 2 blocks after
finalisation (position 10 closes block 0 because `10 >= 10` and the partial
block 1 holding it is emitted by `Finalise`), while
`⌈10 / 10⌉ = (10 + 10 - 1) / 10 = 1`. -/
theorem c2_counterexample :
    (fsGet (okFinalFS (runAdds cfgA [((1 : Int), ("A")), ((10 : Int), ("A"))]
        (Summariser.init cfgA.categories.length ("chr1") [10] []).1
        (Summariser.init cfgA.categories.length ("chr1") [10] []).2)) (("chr1"), 10)).length = 2
    ∧ ((10 : Int) + 10 - 1) / 10 = 1 := by
  refine ⟨?_, ?_⟩ <;> decide

/-- C2 (amended): for one chromosome's records with strictly increasing
positive positions fed through `Add` and then `Finalise`, every level of
width `w` has written exactly `N / w + 1` blocks (floor division), where `N`
is the final, greatest position — equivalently `⌈(N + 1) / w⌉`, which equals
the claimed `⌈N / w⌉` except when `w` divides `N`.  Since the sink is an
append-only list with one entry per closed block, block indices `0, 1, ...`
each appear exactly once, in increasing order. -/
theorem c2_cadence (cfg : Config) (chrom : String) (widths : List Int) (fs : FS)
    (recs : List (Int × String)) (N : Int)
    (hw : ∀ w ∈ widths, 1 ≤ w)
    (hdist : widths.Pairwise (fun a b => a ≠ b))
    (hchain : List.Chain (fun a b => a < b) 0 (recs.map (fun r => r.1)))
    (hN : lastD 0 (recs.map (fun r => r.1)) = N) :
    ∃ fs2 s2,
      runAdds cfg recs (Summariser.init cfg.categories.length chrom widths fs).1
        (Summariser.init cfg.categories.length chrom widths fs).2 = .ok (fs2, s2) ∧
      ∀ w ∈ widths,
        ((fsGet (Summariser.Finalise fs2 s2) (chrom, w)).length : Int) = N / w + 1 := by
  subst hN
  obtain ⟨fs2, s2, hok, hinv⟩ :=
    runAdds_inv cfg chrom widths hdist recs 0 0
      (Summariser.init cfg.categories.length chrom widths fs).1
      (Summariser.init cfg.categories.length chrom widths fs).2
      le_rfl hchain (summInit_inv cfg chrom widths fs hw)
  refine ⟨fs2, s2, hok, ?_⟩
  intro w hwm
  have hpw := SummInv_fkeys_pairwise cfg chrom widths _ _ fs2 s2 hinv hdist
  obtain ⟨hlast, hmap, hall⟩ := hinv
  have hwmem2 : w ∈ s2.levels.map (fun l => l.blocksize) := by rw [hmap]; exact hwm
  obtain ⟨l, hlmem, hlw⟩ := List.mem_map.mp hwmem2
  obtain ⟨hw1, hkey, hlen, hend, hlo, hhi, htot⟩ := hall l hlmem
  have hk2 : l.fkey = (chrom, w) := by rw [hkey, hlw]
  have hfin := finaliseLevels_spec s2.levels fs2 hpw
  have hfe : Summariser.Finalise fs2 s2 = finaliseLevels fs2 s2.levels := rfl
  rw [hfe, ← hk2, hfin.1 l hlmem]
  have hdiv : ((fsGet fs2 l.fkey).length : Int)
      = lastD 0 (recs.map (fun r => r.1)) / w := by
    refine length_eq_ediv w _ _ (by rw [← hlw]; exact hw1) ?_ ?_
    · rw [← hlw]; exact hlo
    · rw [← hlw, ← hend]; exact hhi
  rw [List.length_append]
  push_cast
  rw [hdiv]
  simp

/-- C2 witness: the amended cadence theorem applied to catalog `["A"]`, one
level of width 10 and a single record at position 1. -/
theorem c2_cadence_witness :
    ∃ fs2 s2,
      runAdds cfgA [((1 : Int), ("A"))] (Summariser.init cfgA.categories.length ("chr1") [10] []).1
        (Summariser.init cfgA.categories.length ("chr1") [10] []).2 = .ok (fs2, s2) ∧
      ∀ w ∈ [(10 : Int)],
        ((fsGet (Summariser.Finalise fs2 s2) (("chr1"), w)).length : Int) = (1 : Int) / w + 1 :=
  c2_cadence cfgA ("chr1") [10] [] [(1, ("A"))] 1
    (by decide) (by decide)
    (List.Chain.cons (by decide) List.Chain.nil) (by decide)

/-! ### Claim C4 -/

/-- C4: conservation — if every record's value resolves to an in-range
category index (exact catalog match, or the catch-all when configured),
then after `Add`-ing all records of one chromosome (strictly increasing
positive positions) and finalising, the counts in all blocks of each level
sum to the number of records processed. -/
theorem c4_conservation (cfg : Config) (chrom : String) (widths : List Int) (fs : FS)
    (recs : List (Int × String))
    (hw : ∀ w ∈ widths, 1 ≤ w)
    (hdist : widths.Pairwise (fun a b => a ≠ b))
    (hchain : List.Chain (fun a b => a < b) 0 (recs.map (fun r => r.1)))
    (hres : ∀ r ∈ recs, ∃ i, resolveNr cfg r.2 = some i ∧ i < cfg.categories.length) :
    ∃ fs2 s2,
      runAdds cfg recs (Summariser.init cfg.categories.length chrom widths fs).1
        (Summariser.init cfg.categories.length chrom widths fs).2 = .ok (fs2, s2) ∧
      ∀ w ∈ widths,
        blocksTotal (fsGet (Summariser.Finalise fs2 s2) (chrom, w)) = recs.length := by
  obtain ⟨fs2, s2, hok, hinv⟩ :=
    runAdds_inv cfg chrom widths hdist recs 0 0
      (Summariser.init cfg.categories.length chrom widths fs).1
      (Summariser.init cfg.categories.length chrom widths fs).2
      le_rfl hchain (summInit_inv cfg chrom widths fs hw)
  have hcnt : 0 + (recs.map (fun r => incOf cfg r.2 cfg.categories.length)).sum
      = recs.length := by
    rw [Nat.zero_add]
    refine sum_map_const_one (Int × String) recs _ ?_
    intro r hr
    obtain ⟨i, hri, hlt⟩ := hres r hr
    unfold incOf
    rw [hri]
    simp [hlt]
  rw [hcnt] at hinv
  refine ⟨fs2, s2, hok, ?_⟩
  intro w hwm
  have hpw := SummInv_fkeys_pairwise cfg chrom widths _ _ fs2 s2 hinv hdist
  obtain ⟨hlast, hmap, hall⟩ := hinv
  have hwmem2 : w ∈ s2.levels.map (fun l => l.blocksize) := by rw [hmap]; exact hwm
  obtain ⟨l, hlmem, hlw⟩ := List.mem_map.mp hwmem2
  obtain ⟨hw1, hkey, hlen, hend, hlo, hhi, htot⟩ := hall l hlmem
  have hk2 : l.fkey = (chrom, w) := by rw [hkey, hlw]
  have hfin := finaliseLevels_spec s2.levels fs2 hpw
  have hfe : Summariser.Finalise fs2 s2 = finaliseLevels fs2 s2.levels := rfl
  rw [hfe, ← hk2, hfin.1 l hlmem, blocksTotal_append]
  exact htot

/-- C4 witness: conservation applied to catalog `["A", "B"]`, levels of
widths 10 and 20, and records `(1, "A")`, `(5, "B")`, `(12, "A")`. -/
theorem c4_conservation_witness :
    ∃ fs2 s2,
      runAdds cfgAB [((1 : Int), ("A")), ((5 : Int), ("B")), ((12 : Int), ("A"))]
        (Summariser.init cfgAB.categories.length ("chr1") [10, 20] []).1
        (Summariser.init cfgAB.categories.length ("chr1") [10, 20] []).2 = .ok (fs2, s2) ∧
      ∀ w ∈ [(10 : Int), 20],
        blocksTotal (fsGet (Summariser.Finalise fs2 s2) (("chr1"), w)) = 3 :=
  c4_conservation cfgAB ("chr1") [10, 20] []
    [(1, ("A")), (5, ("B")), (12, ("A"))]
    (by decide) (by decide)
    (List.Chain.cons (by decide) (List.Chain.cons (by decide)
      (List.Chain.cons (by decide) List.Chain.nil))) (by decide)

/-! ### Claim C6 -/

/-- C6: catalog `["A", "B"]`, a single level of width 10, records
`(1, "A")`, `(5, "B")`, `(12, "A")` for one chromosome: after the first two
records nothing has been emitted; `Add(12, "A")` closes block 0 with counts
`{A:1, B:1}` (because `12 >= 10`); `Finalise` then emits block 1 with counts
`{A:1, B:0}` holding the position-12 record — exactly two blocks. -/
theorem c6_scenario :
    fsGet (okFS (runAdds cfgAB [((1 : Int), ("A")), ((5 : Int), ("B"))]
      (Summariser.init cfgAB.categories.length ("chr1") [10] []).1
      (Summariser.init cfgAB.categories.length ("chr1") [10] []).2)) (("chr1"), 10) = []
    ∧ fsGet (okFS (runAdds cfgAB [((1 : Int), ("A")), ((5 : Int), ("B")), ((12 : Int), ("A"))]
      (Summariser.init cfgAB.categories.length ("chr1") [10] []).1
      (Summariser.init cfgAB.categories.length ("chr1") [10] []).2)) (("chr1"), 10) = [[1, 1]]
    ∧ fsGet (okFinalFS (runAdds cfgAB
      [((1 : Int), ("A")), ((5 : Int), ("B")), ((12 : Int), ("A"))]
      (Summariser.init cfgAB.categories.length ("chr1") [10] []).1
      (Summariser.init cfgAB.categories.length ("chr1") [10] []).2)) (("chr1"), 10)
        = [[1, 1], [1, 0]] := by
  refine ⟨?_, ?_, ?_⟩ <;> decide

/-! ### Claim C1 -/

/-- C1 evaluated at the failing input: `Summariser.Add` never assigns
`lastpos`, so after a successful `Add` at position 5, a second `Add` at
position 3 on the same pyramid also succeeds (no `OutOfOrderPosition`), and
`lastpos` still holds the initial `-1` — contradicting the claim that the
second `Add` must fail. -/
theorem c1_lastpos_never_updated :
    exceptIsOk (runAdds cfgA [((5 : Int), ("A")), ((3 : Int), ("A"))]
      (Summariser.init cfgA.categories.length ("chr1") [10] []).1
      (Summariser.init cfgA.categories.length ("chr1") [10] []).2) = true
    ∧ okLastpos (runAdds cfgA [((5 : Int), ("A")), ((3 : Int), ("A"))]
      (Summariser.init cfgA.categories.length ("chr1") [10] []).1
      (Summariser.init cfgA.categories.length ("chr1") [10] []).2) = some (-1) := by
  refine ⟨?_, ?_⟩ <;> decide

/-! ### Claim C8 -/

theorem addLevels_unresolved (cfg : Config) (pos : Int) (val : String)
    (hcm : categorymapGet cfg.categories val = none)
    (ho : cfg.otherCategoryNr = none) :
    ∀ (lvls : List Level) (fs : FS),
      (lvls.map (fun l => l.fkey)).Pairwise (fun a b => a ≠ b) →
      (addLevels cfg pos val fs lvls).2.length = lvls.length ∧
      (∀ pr ∈ lvls.zip (addLevels cfg pos val fs lvls).2,
        pr.2.blocksize = pr.1.blocksize ∧ pr.2.fkey = pr.1.fkey ∧
        blocksTotal (fsGet (addLevels cfg pos val fs lvls).1 pr.2.fkey) + pr.2.catcounts.sum
          = blocksTotal (fsGet fs pr.1.fkey) + pr.1.catcounts.sum) ∧
      (∀ k, (∀ l ∈ lvls, k ≠ l.fkey) → fsGet (addLevels cfg pos val fs lvls).1 k = fsGet fs k) := by
  intro lvls
  induction lvls with
  | nil =>
    intro fs _
    refine ⟨rfl, ?_, ?_⟩
    · intro pr hpr; simp [addLevels] at hpr
    · intro k _; rfl
  | cons l rest ih =>
    intro fs hpw
    have hpwrest : (rest.map (fun x => x.fkey)).Pairwise (fun a b => a ≠ b) :=
      (List.pairwise_cons.mp hpw).2
    have hheadne : ∀ x ∈ rest, l.fkey ≠ x.fkey := by
      intro x hx
      exact (List.pairwise_cons.mp hpw).1 x.fkey (List.mem_map_of_mem _ hx)
    have hadv : Level.advance cfg.categories.length pos fs l
        = advanceAux cfg.categories.length pos (pos + 1 - l.currentblockend).toNat fs l := rfl
    have hfields := advanceAux_fields cfg.categories.length pos
      (pos + 1 - l.currentblockend).toNat fs l
    have hframe := advanceAux_frame cfg.categories.length pos
      (pos + 1 - l.currentblockend).toNat fs l
    have htotal := advanceAux_total cfg.categories.length pos
      (pos + 1 - l.currentblockend).toNat fs l
    set p := Level.advance cfg.categories.length pos fs l with hpdef
    rw [← hadv] at hfields hframe htotal
    have hincid : Level.increment cfg val p.2 = p.2 :=
      increment_of_unresolved cfg val p.2 hcm ho
    set q := addLevels cfg pos val p.1 rest with hqdef
    have hstep : addLevels cfg pos val fs (l :: rest) = (q.1, Level.increment cfg val p.2 :: q.2) :=
      rfl
    have hrec := ih p.1 hpwrest
    rw [← hqdef] at hrec
    have hqframe : fsGet q.1 l.fkey = fsGet p.1 l.fkey := hrec.2.2 l.fkey hheadne
    refine ⟨?_, ?_, ?_⟩
    · rw [hstep]
      simp only [List.length_cons]
      rw [hrec.1]
    · rw [hstep]
      intro pr hpr
      rw [List.zip_cons_cons] at hpr
      rcases List.mem_cons.mp hpr with hpr1 | hpr2
      · rw [hpr1]
        rw [hincid]
        refine ⟨hfields.1, hfields.2, ?_⟩
        rw [hfields.2, hqframe]
        exact htotal
      · have hx := hrec.2.1 pr hpr2
        have hmem := List.of_mem_zip hpr2
        have hfs : fsGet p.1 pr.1.fkey = fsGet fs pr.1.fkey :=
          hframe pr.1.fkey (fun hh => hheadne pr.1 hmem.1 hh.symm)
        rw [hfs] at hx
        exact hx
    · rw [hstep]
      intro k hk
      have h1 : fsGet q.1 k = fsGet p.1 k :=
        hrec.2.2 k (fun x hx => hk x (by simp [hx]))
      have h2 : fsGet p.1 k = fsGet fs k := hframe k (hk l (by simp))
      rw [h1, h2]

/-- C8: an `Add` whose value matches no catalog entry, with no catch-all
configured, succeeds (it is not an error); every level keeps its width and
its output file, and neither the file contents' total nor the running counts
gain anything from the record — it is counted nowhere — while files of other
levels are untouched.  (Block boundaries may still advance, closing all-zero
gap blocks, exactly as for any position.) -/
theorem c8_unmatched_value (cfg : Config) (fs : FS) (s : Summariser) (pos : Int) (val : String)
    (hcm : categorymapGet cfg.categories val = none)
    (ho : cfg.otherCategoryNr = none)
    (hpos : s.lastpos < pos)
    (hdist : (s.levels.map (fun l => l.fkey)).Pairwise (fun a b => a ≠ b)) :
    ∃ fs2 lvls2, Summariser.Add cfg pos val fs s = .ok (fs2, { s with levels := lvls2 }) ∧
      lvls2.length = s.levels.length ∧
      (∀ pr ∈ s.levels.zip lvls2,
        pr.2.blocksize = pr.1.blocksize ∧ pr.2.fkey = pr.1.fkey ∧
        blocksTotal (fsGet fs2 pr.2.fkey) + pr.2.catcounts.sum
          = blocksTotal (fsGet fs pr.1.fkey) + pr.1.catcounts.sum) ∧
      (∀ k, (∀ l ∈ s.levels, k ≠ l.fkey) → fsGet fs2 k = fsGet fs k) := by
  have hnotle : ¬ (pos ≤ s.lastpos) := by omega
  have hall := addLevels_unresolved cfg pos val hcm ho s.levels fs hdist
  refine ⟨(addLevels cfg pos val fs s.levels).1, (addLevels cfg pos val fs s.levels).2, ?_,
    hall.1, hall.2.1, hall.2.2⟩
  unfold Summariser.Add
  rw [if_neg hnotle]

/-- C8 witness: the theorem applied to catalog `["A"]`, one level of width
10, and an `Add` at position 15 with the unmatched value `"Z"`. -/
theorem c8_unmatched_value_witness :
    ∃ fs2 lvls2,
      Summariser.Add cfgA 15 ("Z") (Summariser.init cfgA.categories.length ("chr1") [10] []).1
        (Summariser.init cfgA.categories.length ("chr1") [10] []).2
        = .ok (fs2, { (Summariser.init cfgA.categories.length ("chr1") [10] []).2 with
                      levels := lvls2 }) ∧
      lvls2.length = (Summariser.init cfgA.categories.length ("chr1") [10] []).2.levels.length ∧
      (∀ pr ∈ (Summariser.init cfgA.categories.length ("chr1") [10] []).2.levels.zip lvls2,
        pr.2.blocksize = pr.1.blocksize ∧ pr.2.fkey = pr.1.fkey ∧
        blocksTotal (fsGet fs2 pr.2.fkey) + pr.2.catcounts.sum
          = blocksTotal (fsGet (Summariser.init cfgA.categories.length ("chr1") [10] []).1
              pr.1.fkey) + pr.1.catcounts.sum) ∧
      (∀ k, (∀ l ∈ (Summariser.init cfgA.categories.length ("chr1") [10] []).2.levels,
          k ≠ l.fkey) →
        fsGet fs2 k = fsGet (Summariser.init cfgA.categories.length ("chr1") [10] []).1 k) :=
  c8_unmatched_value cfgA (Summariser.init cfgA.categories.length ("chr1") [10] []).1
    (Summariser.init cfgA.categories.length ("chr1") [10] []).2 15 ("Z")
    (by decide) rfl (by decide) (by decide)

/-! ### Driver lemmas -/

theorem driverStep_repeat (cfg : Config) (widths : List Int) (st : DriverState) (r : Record)
    (hne : ¬ (r.chromosome = st.currentChromosome))
    (hmem : r.chromosome ∈ st.processedChromosomes) :
    driverStep cfg widths st r = .error (.chromosomeRepeat,
      { fs := (Summariser.init cfg.categories.length r.chromosome widths
          (match st.summariser with
           | some s => Summariser.Finalise st.fs s
           | none => st.fs)).1,
        currentChromosome := st.currentChromosome,
        summariser := some (Summariser.init cfg.categories.length r.chromosome widths
          (match st.summariser with
           | some s => Summariser.Finalise st.fs s
           | none => st.fs)).2,
        processedChromosomes := st.processedChromosomes }) := by
  simp only [driverStep, if_neg hne, if_pos hmem]

theorem driverStep_ok_cases (cfg : Config) (widths : List Int) (st : DriverState) (r : Record)
    (st1 : DriverState) (h : driverStep cfg widths st r = .ok st1) :
    (r.chromosome = st.currentChromosome ∧
       st1.currentChromosome = st.currentChromosome ∧
       st1.processedChromosomes = st.processedChromosomes ∧
       st.summariser ≠ none) ∨
    (¬ (r.chromosome = st.currentChromosome) ∧
       r.chromosome ∉ st.processedChromosomes ∧
       st1.currentChromosome = r.chromosome ∧
       st1.processedChromosomes = r.chromosome :: st.processedChromosomes) := by
  by_cases hc : r.chromosome = st.currentChromosome
  · left
    cases hs : st.summariser with
    | none => simp [driverStep, hc, hs] at h
    | some s =>
      cases ha : Summariser.Add cfg r.pos r.val st.fs s with
      | error e => simp [driverStep, hc, hs, ha] at h
      | ok p =>
        simp only [driverStep, if_pos hc, hs, ha] at h
        have hst1 : st1 = { st with fs := p.1, summariser := some p.2 } := by
          cases h
          rfl
        rw [hst1]
        exact ⟨hc, rfl, rfl, by simp [hs]⟩
  · right
    by_cases hm : r.chromosome ∈ st.processedChromosomes
    · simp [driverStep, hc, hm] at h
    · simp only [driverStep, if_neg hc, if_neg hm] at h
      cases ha : Summariser.Add cfg r.pos r.val
          (Summariser.init cfg.categories.length r.chromosome widths
            (match st.summariser with
             | some s => Summariser.Finalise st.fs s
             | none => st.fs)).1
          (Summariser.init cfg.categories.length r.chromosome widths
            (match st.summariser with
             | some s => Summariser.Finalise st.fs s
             | none => st.fs)).2 with
      | error e => rw [ha] at h; cases h
      | ok p =>
        rw [ha] at h
        cases h
        exact ⟨hc, hm, rfl, rfl⟩

theorem runRecords_append (cfg : Config) (widths : List Int) :
    ∀ (xs ys : List Record) (st : DriverState),
      runRecords cfg widths (xs ++ ys) st =
        match runRecords cfg widths xs st with
        | .ok st1 => runRecords cfg widths ys st1
        | .error e => .error e := by
  intro xs
  induction xs with
  | nil => intro ys st; rfl
  | cons x xt ih =>
    intro ys st
    have hL : runRecords cfg widths ((x :: xt) ++ ys) st
        = (match driverStep cfg widths st x with
           | .ok st1 => runRecords cfg widths (xt ++ ys) st1
           | .error e => .error e) := rfl
    have hR : runRecords cfg widths (x :: xt) st
        = (match driverStep cfg widths st x with
           | .ok st1 => runRecords cfg widths xt st1
           | .error e => .error e) := rfl
    rw [hL, hR]
    cases driverStep cfg widths st x with
    | ok st1 => exact ih ys st1
    | error e => rfl

theorem runRecords_inv (cfg : Config) (widths : List Int) :
    ∀ (rs : List Record) (st st2 : DriverState),
      DriverInv st →
      runRecords cfg widths rs st = .ok st2 →
      DriverInv st2 ∧
      st2.currentChromosome = lastD st.currentChromosome (rs.map (fun r => r.chromosome)) ∧
      (∀ c, c ∈ st2.processedChromosomes ↔
        (c ∈ st.processedChromosomes ∨ c ∈ rs.map (fun r => r.chromosome))) := by
  intro rs
  induction rs with
  | nil =>
    intro st st2 hinv h
    have heq : st = st2 := by
      have : (Except.ok st : Except (Err × DriverState) DriverState) = .ok st2 := h
      cases this
      rfl
    subst heq
    exact ⟨hinv, rfl, by simp⟩
  | cons r rest ih =>
    intro st st2 hinv h
    cases hstep : driverStep cfg widths st r with
    | error e =>
      unfold runRecords at h
      rw [hstep] at h
      cases h
    | ok st1 =>
      unfold runRecords at h
      rw [hstep] at h
      rcases driverStep_ok_cases cfg widths st r st1 hstep with
        ⟨hc, hcur, hproc, hsumm⟩ | ⟨hc, hm, hcur, hproc⟩
      · have hinv1 : DriverInv st1 := by
          rcases hinv with hA | ⟨hB1, hB2⟩
          · left; rw [hcur, hproc]; exact hA
          · exact absurd hB2 hsumm
        obtain ⟨h1, h2, h3⟩ := ih st1 st2 hinv1 h
        have hcmem : st.currentChromosome ∈ st.processedChromosomes := by
          rcases hinv with hA | ⟨hB1, hB2⟩
          · exact hA
          · exact absurd hB2 hsumm
        refine ⟨h1, ?_, ?_⟩
        · rw [h2, hcur]
          have hre : lastD st.currentChromosome ((r :: rest).map (fun x => x.chromosome))
              = lastD r.chromosome (rest.map (fun x => x.chromosome)) := rfl
          rw [hre, hc]
        · intro c
          rw [h3 c, hproc]
          simp only [List.map_cons, List.mem_cons]
          constructor
          · intro hcc
            rcases hcc with hp | hr
            · exact Or.inl hp
            · exact Or.inr (Or.inr hr)
          · intro hcc
            rcases hcc with hp | hcr | hr
            · exact Or.inl hp
            · rw [hcr, hc]; exact Or.inl hcmem
            · exact Or.inr hr
      · have hinv1 : DriverInv st1 := by
          left
          rw [hcur, hproc]
          exact List.mem_cons_self _ _
        obtain ⟨h1, h2, h3⟩ := ih st1 st2 hinv1 h
        refine ⟨h1, ?_, ?_⟩
        · rw [h2, hcur]
          rfl
        · intro c
          rw [h3 c, hproc]
          simp only [List.map_cons, List.mem_cons]
          tauto

/-! ### Claim C7 -/

/-- C7: whenever a chromosome label `c` reappears after its contiguous run
has ended (it occurred among the already-processed records and is not the
label of the last record before the reappearance), the driver raises
`ChromosomeRepeat` upon the reappearing record — whatever records would
follow are never reached. -/
theorem c7_chromosome_repeat (cfg : Config) (widths : List Int)
    (rs1 rest : List Record) (c : String) (p : Int) (v : String)
    (hok : ∃ st, runRecords cfg widths rs1 initialState = .ok st)
    (hc : c ∈ rs1.map (fun r => r.chromosome))
    (hlast : ¬ (lastD ("") (rs1.map (fun r => r.chromosome)) = c)) :
    ∃ st2, runDriver cfg widths (rs1 ++ ⟨c, p, v⟩ :: rest)
      = .error (.chromosomeRepeat, st2) := by
  obtain ⟨st, hst⟩ := hok
  obtain ⟨hinv, hcur, hproc⟩ :=
    runRecords_inv cfg widths rs1 initialState st (Or.inr ⟨rfl, rfl⟩) hst
  have hcmem : c ∈ st.processedChromosomes := by
    refine (hproc c).mpr (Or.inr ?_)
    simpa using hc
  have hcne : ¬ ((⟨c, p, v⟩ : Record).chromosome = st.currentChromosome) := by
    show ¬ (c = st.currentChromosome)
    rw [hcur]
    intro hcontra
    exact hlast hcontra.symm
  have hstep := driverStep_repeat cfg widths st ⟨c, p, v⟩ hcne hcmem
  have h1 : runRecords cfg widths (rs1 ++ ⟨c, p, v⟩ :: rest) initialState
      = runRecords cfg widths (⟨c, p, v⟩ :: rest) st := by
    rw [runRecords_append cfg widths rs1 (⟨c, p, v⟩ :: rest) initialState, hst]
  refine ⟨⟨(Summariser.init cfg.categories.length c widths
        (finalisedFS (Except.ok st))).1,
      st.currentChromosome,
      some (Summariser.init cfg.categories.length c widths
        (finalisedFS (Except.ok st))).2,
      st.processedChromosomes⟩, ?_⟩
  unfold runDriver
  rw [h1]
  unfold runRecords
  rw [hstep]
  rfl

/-- C7 witness: the repeat theorem applied to the stream
`chr1, chr2, chr1` with catalog `["A"]` and one level of width 10. -/
theorem c7_chromosome_repeat_witness :
    ∃ st2, runDriver cfgA [10]
        ([⟨"chr1", 1, "A"⟩, ⟨"chr2", 1, "A"⟩] ++ ⟨"chr1", 2, "A"⟩ :: [])
      = .error (.chromosomeRepeat, st2) :=
  c7_chromosome_repeat cfgA [10] [⟨"chr1", 1, "A"⟩, ⟨"chr2", 1, "A"⟩] [] ("chr1") 2 ("A")
    ⟨_, rfl⟩ (by decide) (by decide)

/-! ### Claim C3 -/

/-- C3 counterexample: on the stream `chr1, chr2, chr1` the driver does
raise `ChromosomeRepeat`, and the active `chr2` pyramid was finalised first
(its file holds its block), but the sinks of the earlier `chr1` run are NOT
intact at the point the error is raised: `chr1`'s file held block `[[1]]`
after its run was finalised, and holds `[]` when the error surfaces, because
the repeated chromosome's `Summariser` is constructed — reopening
`Summ_chr1_10` with mode `'w'` and truncating it — before the
`processedChromosomes` check raises. -/
theorem c3_counterexample :
    resultErr (runDriver cfgA [10]
      [⟨"chr1", 1, "A"⟩, ⟨"chr2", 1, "A"⟩, ⟨"chr1", 2, "A"⟩]) = some .chromosomeRepeat
    ∧ fsGet (resultFS (runRecords cfgA [10] [⟨"chr1", 1, "A"⟩, ⟨"chr2", 1, "A"⟩] initialState))
        (("chr1"), 10) = [[1]]
    ∧ fsGet (resultFS (runDriver cfgA [10]
        [⟨"chr1", 1, "A"⟩, ⟨"chr2", 1, "A"⟩, ⟨"chr1", 2, "A"⟩])) (("chr1"), 10) = []
    ∧ fsGet (resultFS (runDriver cfgA [10]
        [⟨"chr1", 1, "A"⟩, ⟨"chr2", 1, "A"⟩, ⟨"chr1", 2, "A"⟩])) (("chr2"), 10) = [[1]] := by
  refine ⟨?_, ?_, ?_, ?_⟩ <;> decide

/-- C3 (amended): when a repeated chromosome `c` triggers `ChromosomeRepeat`,
the currently active pyramid HAS been finalised before the error surfaces,
and the sinks of every chromosome other than `c` hold exactly what that
finalisation left (intact); but the sinks of the earlier run of `c` itself
are truncated to empty — their already-emitted blocks are destroyed — because
the new `Summariser` reopens `Summ_c_<width>` for writing before the repeat
check raises. -/
theorem c3_finalised_but_truncated (cfg : Config) (widths : List Int)
    (rs1 rest : List Record) (c : String) (p : Int) (v : String)
    (hok : ∃ st, runRecords cfg widths rs1 initialState = .ok st)
    (hc : c ∈ rs1.map (fun r => r.chromosome))
    (hlast : ¬ (lastD ("") (rs1.map (fun r => r.chromosome)) = c)) :
    ∃ st2, runDriver cfg widths (rs1 ++ ⟨c, p, v⟩ :: rest)
        = .error (.chromosomeRepeat, st2) ∧
      (∀ w ∈ widths, fsGet st2.fs (c, w) = []) ∧
      (∀ k : FKey, k.1 ≠ c →
        fsGet st2.fs k = fsGet (finalisedFS (runRecords cfg widths rs1 initialState)) k) := by
  obtain ⟨st, hst⟩ := hok
  obtain ⟨hinv, hcur, hproc⟩ :=
    runRecords_inv cfg widths rs1 initialState st (Or.inr ⟨rfl, rfl⟩) hst
  have hcmem : c ∈ st.processedChromosomes := by
    refine (hproc c).mpr (Or.inr ?_)
    simpa using hc
  have hcne : ¬ ((⟨c, p, v⟩ : Record).chromosome = st.currentChromosome) := by
    show ¬ (c = st.currentChromosome)
    rw [hcur]
    intro hcontra
    exact hlast hcontra.symm
  have hstep := driverStep_repeat cfg widths st ⟨c, p, v⟩ hcne hcmem
  have h1 : runRecords cfg widths (rs1 ++ ⟨c, p, v⟩ :: rest) initialState
      = runRecords cfg widths (⟨c, p, v⟩ :: rest) st := by
    rw [runRecords_append cfg widths rs1 (⟨c, p, v⟩ :: rest) initialState, hst]
  have h2 : runRecords cfg widths (⟨c, p, v⟩ :: rest) st
      = .error (.chromosomeRepeat,
        { fs := (Summariser.init cfg.categories.length c widths
            (match st.summariser with
             | some s => Summariser.Finalise st.fs s
             | none => st.fs)).1,
          currentChromosome := st.currentChromosome,
          summariser := some (Summariser.init cfg.categories.length c widths
            (match st.summariser with
             | some s => Summariser.Finalise st.fs s
             | none => st.fs)).2,
          processedChromosomes := st.processedChromosomes }) := by
    unfold runRecords
    rw [hstep]
  have hffs : finalisedFS (runRecords cfg widths rs1 initialState)
      = (match st.summariser with
         | some s => Summariser.Finalise st.fs s
         | none => st.fs) := by
    rw [hst]
    rfl
  have hinitspec := initLevels_spec cfg.categories.length c
    widths (match st.summariser with
            | some s => Summariser.Finalise st.fs s
            | none => st.fs)
  have hinit1 : (Summariser.init cfg.categories.length c widths
      (match st.summariser with
       | some s => Summariser.Finalise st.fs s
       | none => st.fs)).1
      = (initLevels cfg.categories.length c
          (match st.summariser with
           | some s => Summariser.Finalise st.fs s
           | none => st.fs) widths).1 := rfl
  refine ⟨⟨(Summariser.init cfg.categories.length c widths
        (finalisedFS (Except.ok st))).1,
      st.currentChromosome,
      some (Summariser.init cfg.categories.length c widths
        (finalisedFS (Except.ok st))).2,
      st.processedChromosomes⟩, ?_, ?_, ?_⟩
  · unfold runDriver
    rw [h1, h2]
    rfl
  · intro w hw
    exact hinitspec.2.1 w hw
  · intro k hk
    rw [hst]
    refine hinitspec.2.2 k ?_
    intro w _ hcontra
    exact hk (by rw [hcontra])

/-- C3 witness: the amended theorem applied to the stream `chr1, chr2, chr1`
with catalog `["A"]` and one level of width 10. -/
theorem c3_finalised_but_truncated_witness :
    ∃ st2, runDriver cfgA [10]
        ([⟨"chr1", 1, "A"⟩, ⟨"chr2", 1, "A"⟩] ++ ⟨"chr1", 2, "A"⟩ :: [])
        = .error (.chromosomeRepeat, st2) ∧
      (∀ w ∈ [(10 : Int)], fsGet st2.fs (("chr1"), w) = []) ∧
      (∀ k : FKey, k.1 ≠ ("chr1") →
        fsGet st2.fs k = fsGet (finalisedFS (runRecords cfgA [10]
          [⟨"chr1", 1, "A"⟩, ⟨"chr2", 1, "A"⟩] initialState)) k) :=
  c3_finalised_but_truncated cfgA [10] [⟨"chr1", 1, "A"⟩, ⟨"chr2", 1, "A"⟩] []
    ("chr1") 2 ("A") ⟨_, rfl⟩ (by decide) (by decide)

/-! ### Level construction: the `while blocksize <= blockSizeMax` loop -/

theorem one_le_pow_int (a : Int) (ha : 1 ≤ a) : ∀ (k : Nat), 1 ≤ a ^ k := by
  intro k
  induction k with
  | zero => simp
  | succ m ih =>
    rw [pow_succ]
    nlinarith

theorem mkWidthsAux_spec (factor bmax : Int) (hf : 2 ≤ factor) :
    ∀ (fuel : Nat) (bs : Int), 1 ≤ bs →
      (bmax + 1 - bs).toNat ≤ fuel →
      ∃ ws, mkWidthsAux factor bmax fuel bs = some ws ∧
        (∀ i, i < ws.length → ws.getD i 0 = bs * factor ^ i) ∧
        (∀ k, bs * factor ^ k ≤ bmax ↔ k < ws.length) := by
  intro fuel
  induction fuel with
  | zero =>
    intro bs hbs hfuel
    have hgt : bmax < bs := by omega
    refine ⟨[], ?_, ?_, ?_⟩
    · show (if bs ≤ bmax then none else some []) = some []
      rw [if_neg (by omega)]
    · intro i hi; simp at hi
    · intro k
      constructor
      · intro hk
        exfalso
        have h1 : (1 : Int) ≤ factor ^ k := one_le_pow_int factor (by omega) k
        have h2 : bs ≤ bs * factor ^ k := le_mul_of_one_le_right (by omega) h1
        omega
      · intro hk; simp at hk
  | succ m ih =>
    intro bs hbs hfuel
    by_cases hle : bs ≤ bmax
    · have hbs2 : (1 : Int) ≤ bs * factor := by nlinarith
      have hmono : bs + 1 ≤ bs * factor := by nlinarith
      have hfuel2 : (bmax + 1 - bs * factor).toNat ≤ m := by omega
      obtain ⟨ws, hws, hpt, hrange⟩ := ih (bs * factor) hbs2 hfuel2
      refine ⟨bs :: ws, ?_, ?_, ?_⟩
      · show (if bs ≤ bmax
            then (mkWidthsAux factor bmax m (bs * factor)).map (fun ws => bs :: ws)
            else some []) = some (bs :: ws)
        rw [if_pos hle, hws]
        rfl
      · intro i hi
        cases i with
        | zero => simp
        | succ j =>
          have hj : j < ws.length := by simpa using hi
          have hj2 := hpt j hj
          show (bs :: ws).getD (j + 1) 0 = bs * factor ^ (j + 1)
          rw [List.getD_cons_succ, hj2, pow_succ]
          ring
      · intro k
        cases k with
        | zero =>
          simp only [pow_zero, mul_one, List.length_cons]
          constructor
          · intro _; omega
          · intro _; exact hle
        | succ j =>
          have hiter := hrange j
          have harr : bs * factor ^ (j + 1) = bs * factor * factor ^ j := by ring
          show bs * factor ^ (j + 1) ≤ bmax ↔ j + 1 < (bs :: ws).length
          rw [harr, hiter]
          simp only [List.length_cons]
          omega
    · refine ⟨[], ?_, ?_, ?_⟩
      · show (if bs ≤ bmax
            then (mkWidthsAux factor bmax m (bs * factor)).map (fun ws => bs :: ws)
            else some []) = some []
        rw [if_neg hle]
      · intro i hi; simp at hi
      · intro k
        constructor
        · intro hk
          exfalso
          have h1 : (1 : Int) ≤ factor ^ k := one_le_pow_int factor (by omega) k
          have h2 : bs ≤ bs * factor ^ k := le_mul_of_one_le_right (by omega) h1
          omega
        · intro hk; simp at hk

theorem mkWidthsAux_none (factor bmax : Int) (hf0 : 0 ≤ factor) (hf1 : factor ≤ 1) :
    ∀ (fuel : Nat) (bs : Int), 0 ≤ bs → bs ≤ bmax →
      mkWidthsAux factor bmax fuel bs = none := by
  intro fuel
  induction fuel with
  | zero =>
    intro bs hbs hle
    show (if bs ≤ bmax then none else some []) = none
    rw [if_pos hle]
  | succ m ih =>
    intro bs hbs hle
    have h1 : 0 ≤ bs * factor := mul_nonneg hbs hf0
    have h2 : bs * factor ≤ bmax := by nlinarith
    show (if bs ≤ bmax
        then (mkWidthsAux factor bmax m (bs * factor)).map (fun ws => bs :: ws)
        else some []) = none
    rw [if_pos hle, ih (bs * factor) h1 h2]
    rfl

theorem mapBlocksize_mk (ncats : Nat) (chrom : String) :
    ∀ (ws : List Int),
      (ws.map (fun w =>
        (⟨w, w, List.replicate ncats 0, (chrom, w)⟩ : Level))).map (fun l => l.blocksize) = ws := by
  intro ws
  induction ws with
  | nil => rfl
  | cons a t iht =>
    simp only [List.map_cons]
    rw [iht]

theorem summInit_widths (ncats : Nat) (chrom : String) (ws : List Int) (fs : FS) :
    (Summariser.init ncats chrom ws fs).2.levels.map (fun l => l.blocksize) = ws := by
  have h2 : (Summariser.init ncats chrom ws fs).2.levels = (initLevels ncats chrom fs ws).2 := rfl
  rw [h2, (initLevels_spec ncats chrom ws fs).1]
  exact mapBlocksize_mk ncats chrom ws

/-! ### Claim C5 -/

/-- C5: for a valid configuration (`blockSizeStart ≥ 1`,
`blockSizeIncrFactor ≥ 2`), level construction produces exactly the
geometric progression `start, start·factor, start·factor², ...`: the `i`-th
produced block size is `start * factor ^ i`, a power `start * factor ^ k` is
`≤ blockSizeMax` exactly when it is among the produced sizes, the sizes are
strictly increasing, and `Summariser.init` builds exactly one level per
produced size, in order; in particular `start = 10, factor = 2, max = 40`
yields `[10, 20, 40]`. -/
theorem c5_level_construction (start factor bmax : Int) (hs : 1 ≤ start) (hf : 2 ≤ factor) :
    (∃ ws, mkWidths start factor bmax = some ws ∧
      (∀ i, i < ws.length → ws.getD i 0 = start * factor ^ i) ∧
      (∀ k, start * factor ^ k ≤ bmax ↔ k < ws.length) ∧
      (∀ i, i + 1 < ws.length → ws.getD i 0 < ws.getD (i + 1) 0) ∧
      (∀ (ncats : Nat) (chrom : String) (fs : FS),
        (Summariser.init ncats chrom ws fs).2.levels.map (fun l => l.blocksize) = ws)) ∧
    mkWidths 10 2 40 = some [10, 20, 40] := by
  constructor
  · obtain ⟨ws, hws, hpt, hrange⟩ :=
      mkWidthsAux_spec factor bmax hf (bmax + 1 - start).toNat start hs le_rfl
    refine ⟨ws, hws, hpt, hrange, ?_, ?_⟩
    · intro i hi
      have h1 := hpt i (by omega)
      have h2 := hpt (i + 1) hi
      have hfp : (0 : Int) < factor ^ i := pow_pos (by omega) i
      have hsucc : factor ^ (i + 1) = factor ^ i * factor := pow_succ factor i
      rw [h1, h2, hsucc, ← mul_assoc]
      have hsp : (0 : Int) < start * factor ^ i := mul_pos (by omega) hfp
      nlinarith
    · intro ncats chrom fs
      exact summInit_widths ncats chrom ws fs
  · decide

/-- C5 witness: the construction theorem at the configuration
`start = 10, factor = 2, max = 40`. -/
theorem c5_level_construction_witness :
    (∃ ws, mkWidths 10 2 40 = some ws ∧
      (∀ i, i < ws.length → ws.getD i 0 = 10 * 2 ^ i) ∧
      (∀ k, (10 : Int) * 2 ^ k ≤ 40 ↔ k < ws.length) ∧
      (∀ i, i + 1 < ws.length → ws.getD i 0 < ws.getD (i + 1) 0) ∧
      (∀ (ncats : Nat) (chrom : String) (fs : FS),
        (Summariser.init ncats chrom ws fs).2.levels.map (fun l => l.blocksize) = ws)) ∧
    mkWidths 10 2 40 = some [10, 20, 40] :=
  c5_level_construction 10 2 40 (by decide) (by decide)

/-! ### Claim C9 -/

/-- C9 counterexample: a factor of `-2` is `≤ 1`, yet the construction loop
terminates (the guard `blocksize <= blockSizeMax` eventually fails at
`160 > 40`), producing the sizes `[10, -20, 40, -80]` — so "a factor of 1 or
less makes the loop non-terminating" is false as stated. -/
theorem c9_counterexample :
    ((-2 : Int) ≤ 1) ∧ mkWidths 10 (-2) 40 = some [10, -20, 40, -80] := by
  refine ⟨?_, ?_⟩ <;> decide

/-- C9 (amended): with `blockSizeStart ≥ 1` and an integer factor `≥ 2`
(i.e. `> 1`) the level-construction loop terminates; a factor of `0` or `1`
(with `start ≤ max`, as the recognized configurations require) makes the
loop non-terminating — the fueled loop returns nothing for every fuel; but a
negative factor, though `≤ 1`, may terminate (see the counterexample). -/
theorem c9_construction_termination :
    (∀ (start factor bmax : Int), 1 ≤ start → 2 ≤ factor →
      ∃ ws, mkWidths start factor bmax = some ws) ∧
    (∀ (start factor bmax : Int) (fuel : Nat), 1 ≤ start → start ≤ bmax →
      0 ≤ factor → factor ≤ 1 → mkWidthsAux factor bmax fuel start = none) := by
  constructor
  · intro start factor bmax hs hf
    obtain ⟨ws, hws, _, _⟩ :=
      mkWidthsAux_spec factor bmax hf (bmax + 1 - start).toNat start hs le_rfl
    exact ⟨ws, hws⟩
  · intro start factor bmax fuel hs hle hf0 hf1
    exact mkWidthsAux_none factor bmax hf0 hf1 fuel start (by omega) hle

/-- C9 witness: termination at `start = 10, factor = 2, max = 40`, and
non-termination (for every fuel, here 5) at `factor = 1` with
`start = 10 ≤ max = 40`. -/
theorem c9_construction_termination_witness :
    (∃ ws, mkWidths 10 2 40 = some ws) ∧ mkWidthsAux 1 40 5 10 = none :=
  ⟨c9_construction_termination.1 10 2 40 (by decide) (by decide),
   c9_construction_termination.2 10 1 40 5 (by decide) (by decide) (by decide) (by decide)⟩

/-! ### Claim C10 -/

/-- C10: the startup scan for the `'_other_'` catch-all label iterates with
`range(categories)` — `range` applied to the category list itself rather
than its length — which raises `TypeError` for every category list; the
scan therefore fails before any record is processed and never yields a
catch-all index. -/
theorem c10_scan_type_error (cats : List String) :
    otherCategoryScan cats
      = .error ("TypeError: 'list' object cannot be interpreted as an integer") := rfl
